import Mathlib

/-!
Verification of the electro backend's delta-and-tariff pipeline.

This file gives a shallow embedding, in Lean 4, of the pure core of the
repository: the identifier sanitizers (`backend/utils/sanitizers.py`), the
tariff classifier (`backend/utils/tariff_classifier.py`) and the
reading-delta reducer / extraction result assembly
(`backend/services/egauge_service.py`), together with theorems settling
the specification's claims about them.

Strings are modelled at the granularity of `List Char` (ASCII-faithful);
machine floats carrying integral cumulative register values are modelled
as `Int`; the timezone-dependent `datetime.fromtimestamp` conversion is a
parameter of the reducer.
-/

/-- A character admitted by the sanitizers' character class `[a-z0-9_]`
(`re.sub(r'[^a-z0-9_]', '_', …)` keeps exactly these). -/
def allowedChar (c : Char) : Prop :=
  ('a' ≤ c ∧ c ≤ 'z') ∨ ('0' ≤ c ∧ c ≤ '9') ∨ c = '_'

instance (c : Char) : Decidable (allowedChar c) := by
  unfold allowedChar; infer_instance

/-- Python's `str.lower`, restricted to its ASCII action (the embedding's
character granularity): uppercase ASCII letters are shifted down by 32,
everything else is kept. -/
def asciiToLower (c : Char) : Char :=
  if 'A' ≤ c ∧ c ≤ 'Z' then Char.ofNat (c.toNat + 32) else c

/-- `column.replace('+', '_plus')` from `sanitize_column_name`. -/
def replacePlus : List Char → List Char
  | [] => []
  | c :: rest => (if c = '+' then ['_', 'p', 'l', 'u', 's'] else [c]) ++ replacePlus rest

/-- `column.replace('-', '_')` from `sanitize_column_name`. -/
def replaceMinus (l : List Char) : List Char :=
  l.map fun c => if c = '-' then '_' else c

/-- `re.sub(r'[^a-z0-9_]', '_', …)`: every character outside `[a-z0-9_]`
becomes a single underscore. -/
def replaceSpecials (l : List Char) : List Char :=
  l.map fun c => if allowedChar c then c else '_'

/-- `re.sub(r'_+', '_', …)`: collapse each run of underscores to one. -/
def collapseUnderscores : List Char → List Char
  | [] => []
  | [c] => [c]
  | a :: b :: rest =>
      if a = '_' ∧ b = '_' then collapseUnderscores (b :: rest)
      else a :: collapseUnderscores (b :: rest)

/-- `.strip('_')`: drop leading and trailing underscores. -/
def stripUnderscores (l : List Char) : List Char :=
  (((l.dropWhile (· = '_')).reverse.dropWhile (· = '_'))).reverse

/-- Character pipeline of `sanitize_column_name` (lines 21–40 of
`backend/utils/sanitizers.py`): lower-case, `+` → `_plus`, `-` → `_`,
replace the remaining specials, collapse `_` runs, strip `_`. -/
def sanitizeColumnChars (l : List Char) : List Char :=
  stripUnderscores (collapseUnderscores (replaceSpecials
    (replaceMinus (replacePlus (l.map asciiToLower)))))

/-- `sanitize_column_name` on strings. -/
def sanitize_column_name (s : String) : String :=
  String.mk (sanitizeColumnChars s.data)

/-- Character pipeline of `sanitize_table_name` before its fallbacks
(lines 10–13 of `backend/utils/sanitizers.py`): lower-case, replace
specials, collapse `_` runs, strip `_`.  Note there is no `+`/`-`
special-casing on the table path. -/
def sanitizeTableChars (l : List Char) : List Char :=
  stripUnderscores (collapseUnderscores (replaceSpecials (l.map asciiToLower)))

/-- `str.isdigit` on an ASCII character. -/
def isDigitChar (c : Char) : Prop := '0' ≤ c ∧ c ≤ '9'

instance (c : Char) : Decidable (isDigitChar c) := by
  unfold isDigitChar; infer_instance

/-- `sanitize_table_name` (lines 5–18 of `backend/utils/sanitizers.py`):
the character pipeline, then `data_` is prefixed when the result starts
with a digit, and the literal `data_client` is returned when the result
is empty (`return table or 'data_client'`). -/
def sanitize_table_name (s : String) : String :=
  match sanitizeTableChars s.data with
  | [] => "data_client"
  | c :: rest =>
      if isDigitChar c then String.mk ('d' :: 'a' :: 't' :: 'a' :: '_' :: c :: rest)
      else String.mk (c :: rest)

/-- Little-endian decimal digits of `n`, fuel-bounded so that the
definition is structural (the fuel `n` itself always suffices). -/
def decDigitsGo : Nat → Nat → List Nat
  | 0, n => [n % 10]
  | fuel + 1, n => if n < 10 then [n] else (n % 10) :: decDigitsGo fuel (n / 10)

/-- Little-endian decimal digits of a natural number. -/
def decDigitsRev (n : Nat) : List Nat := decDigitsGo n n

/-- The ASCII character of a decimal digit (`chr(48 + d)`). -/
def digitChar (d : Nat) : Char := Char.ofNat (48 + d)

/-- Python's `str` on a non-negative integer: standard decimal notation. -/
def pyStr (n : Nat) : String := String.mk ((decDigitsRev n).reverse.map digitChar)

/-- The collision-resolution loop of `make_columns_unique` (lines 53–58 of
`backend/utils/sanitizers.py`): starting from `cand` (initially the
sanitized name) keep trying `original_2`, `original_3`, … while the
candidate is in `seen`.  The loop is given `fuel` iterations; fuel
`seen.length + 1` is always enough (proved below), so the fuel-exhausted
branch mirrors the loop faithfully on every reachable input. -/
def findUniqueName (seen : List String) (original cand : String) (counter fuel : Nat) : String :=
  match fuel with
  | 0 => cand
  | fuel + 1 =>
      if cand ∈ seen then
        findUniqueName seen original (original ++ "_" ++ pyStr counter) (counter + 1) fuel
      else cand

/-- The loop body of `make_columns_unique`, threading the `seen` set. -/
def makeColumnsUniqueGo (seen : List String) : List String → List String
  | [] => []
  | col :: rest =>
      let original := sanitize_column_name col
      let chosen := findUniqueName seen original original 2 (seen.length + 1)
      chosen :: makeColumnsUniqueGo (chosen :: seen) rest

/-- `make_columns_unique` (lines 43–63 of `backend/utils/sanitizers.py`). -/
def make_columns_unique (columns : List String) : List String :=
  makeColumnsUniqueGo [] columns

/-- The tariff categories of `backend/utils/tariff_classifier.py`
(`TariffType = Literal["Base", "Intermedio", "Punta"]`); `Intermedio` is
the spec's Intermediate and `Punta` its Peak. -/
inductive Tariff where
  | Base
  | Intermedio
  | Punta
deriving DecidableEq, Repr

/-- Python's `datetime.time` at second resolution, as used by
`classify_tariff` (`time(hour, minute)` and the literal bounds up to
`time(23, 59, 59)`). -/
structure PyTime where
  hour : Nat
  minute : Nat
  second : Nat
deriving DecidableEq, Repr

/-- Python's `<=` on `datetime.time`: lexicographic on
(hour, minute, second). -/
def timeLE (a b : PyTime) : Bool :=
  a.hour < b.hour ||
    (a.hour = b.hour && (a.minute < b.minute ||
      (a.minute = b.minute && a.second ≤ b.second)))

/-- Python's `<` on `datetime.time`: strict lexicographic order. -/
def timeLT (a b : PyTime) : Bool :=
  a.hour < b.hour ||
    (a.hour = b.hour && (a.minute < b.minute ||
      (a.minute = b.minute && a.second < b.second)))

/-- The projections of a Python `datetime` used by the pipeline:
`weekday()` (0 = Monday … 6 = Sunday), the calendar fields feeding
`strftime`, and the clock fields.  `micro` models the microsecond
component, which the classifier never reads. -/
structure PyDateTime where
  year : Nat
  month : Nat
  day : Nat
  weekday : Nat
  hour : Nat
  minute : Nat
  second : Nat
  micro : Nat
deriving DecidableEq, Repr

/-- `TariffClassifier._classify_weekday` (lines 49–88 of
`backend/utils/tariff_classifier.py`): peak `[18:00, 22:00)`, morning
intermediate `[06:00, 10:00)`, evening intermediate
`[22:00, 23:59:59]`, everything else base. -/
def classify_weekday (current_time : PyTime) : Tariff :=
  let peak_start : PyTime := ⟨18, 0, 0⟩
  let peak_end : PyTime := ⟨22, 0, 0⟩
  let intermediate_morning_start : PyTime := ⟨6, 0, 0⟩
  let intermediate_morning_end : PyTime := ⟨10, 0, 0⟩
  let intermediate_evening_start : PyTime := ⟨22, 0, 0⟩
  let intermediate_evening_end : PyTime := ⟨23, 59, 59⟩
  if timeLE peak_start current_time && timeLT current_time peak_end then
    Tariff.Punta
  else if (timeLE intermediate_morning_start current_time
        && timeLT current_time intermediate_morning_end)
      || (timeLE intermediate_evening_start current_time
        && timeLE current_time intermediate_evening_end) then
    Tariff.Intermedio
  else
    Tariff.Base

/-- `TariffClassifier.classify_tariff` (lines 21–47 of
`backend/utils/tariff_classifier.py`): weekends (weekday ≥ 5) are Base;
weekdays are classified from `time(hour, minute)` — the second and
microsecond components are dropped. -/
def classify_tariff (timestamp : PyDateTime) : Tariff :=
  let current_time : PyTime := ⟨timestamp.hour, timestamp.minute, 0⟩
  if 5 ≤ timestamp.weekday then Tariff.Base
  else classify_weekday current_time

/-- Seconds since local midnight of a `PyDateTime`, used to state the
tariff bands arithmetically. -/
def secOfDay (t : PyDateTime) : Nat :=
  3600 * t.hour + 60 * t.minute + t.second

/-- A cumulative device reading at the reducer's boundary (spec §3): an
integer epoch-second timestamp plus named cumulative register values.
The eGauge row object is an external collaborator; its numeric register
values are modelled as integers. -/
structure Reading where
  ts : Int
  regs : List (String × Int)
deriving DecidableEq, Repr

/-- Value of register `reg` in a reading's sample, `none` when the device
omitted the register from that sample. -/
def regLookup (regs : List (String × Int)) (reg : String) : Option Int :=
  regs.lookup reg

/-- Per-register delta of the pair `(a, b)`: models
`(rows[i] - rows[i+1]).pq_accu(regname)` followed by
`float(accu.value) if accu else 0.0` (lines 148–150 of
`backend/services/egauge_service.py`); per the spec's boundary contract
(§4.3), a register absent from either side yields `0.0`. -/
def deltaVal (a b : Reading) (reg : String) : Int :=
  match regLookup a.regs reg, regLookup b.regs reg with
  | some x, some y => x - y
  | _, _ => 0

/-- Zero-pad a number to two decimal digits (`strftime` `%H`, `%M`, `%S`,
`%m`, `%d`). -/
def pad2 (n : Nat) : String :=
  if n < 10 then "0" ++ pyStr n else pyStr n

/-- Zero-pad a number to four decimal digits (`strftime` `%Y`). -/
def pad4 (n : Nat) : String :=
  if n < 10 then "000" ++ pyStr n
  else if n < 100 then "00" ++ pyStr n
  else if n < 1000 then "0" ++ pyStr n
  else pyStr n

/-- `timestamp.strftime("%Y-%m-%d")`. -/
def fmtDate (t : PyDateTime) : String :=
  pad4 t.year ++ "-" ++ pad2 t.month ++ "-" ++ pad2 t.day

/-- `timestamp.strftime("%H:%M:%S")`. -/
def fmtTime (t : PyDateTime) : String :=
  pad2 t.hour ++ ":" ++ pad2 t.minute ++ ":" ++ pad2 t.second

/-- One output row of `_process_rows` (lines 139–152 of
`backend/services/egauge_service.py`): the fixed `date`/`time`/
`timestamp`/`tariff` entries plus one `(mapped column name, delta)`
entry per register, in register order. -/
structure IntervalRecord where
  date : String
  time : String
  timestamp : Int
  tariff : Tariff
  values : List (String × Int)
deriving DecidableEq, Repr

/-- The record built for the adjacent pair `(a, b)` = `(rows[i],
rows[i+1])`: timestamp, date, time and tariff all derive from the anchor
`b = rows[i+1]` through the timezone-dependent conversion `toDT`
(modelling `datetime.fromtimestamp`). -/
def mkRecord (toDT : Int → PyDateTime) (a b : Reading)
    (registers : List String) (mapping : String → String) : IntervalRecord :=
  { date := fmtDate (toDT b.ts)
    time := fmtTime (toDT b.ts)
    timestamp := b.ts
    tariff := classify_tariff (toDT b.ts)
    values := registers.map fun reg => (mapping reg, deltaVal a b reg) }

/-- `EGaugeService._process_rows` (lines 122–154 of
`backend/services/egauge_service.py`): one record per adjacent pair of
rows, in input order. -/
def process_rows (toDT : Int → PyDateTime) (rows : List Reading)
    (registers : List String) (mapping : String → String) : List IntervalRecord :=
  match rows with
  | a :: b :: rest => mkRecord toDT a b registers mapping :: process_rows toDT (b :: rest) registers mapping
  | _ => []

/-- The success payload of `extract_data` (lines 105–112 of
`backend/services/egauge_service.py`). -/
structure ExtractOk where
  columns : List String
  sanitized_columns : List String
  register_mapping : List (String × String)
  data : List IntervalRecord
  total_records : Nat
deriving DecidableEq, Repr

/-- An `extract_data` outcome: `{'success': True, …}` or
`{'success': False, 'error': …}`. -/
inductive ExtractResult where
  | success (r : ExtractOk)
  | failure (error : String)
deriving DecidableEq, Repr

/-- The message of the `len(rows) < 2` branch of `extract_data`
(lines 80–86 of `backend/services/egauge_service.py`). -/
def insufficientMsg (n : Nat) : String :=
  "Not enough data in the specified range. Received only " ++ pyStr n ++
    " rows. The device may not have data for this period."

/-- The deterministic tail of `EGaugeService.extract_data` (lines 79–112
of `backend/services/egauge_service.py`), after the device fetch has
produced `rows` and the declared register list `registers`: validate the
row count, derive the unique sanitized register names and the
raw-to-sanitized mapping, run the reducer, and assemble the result. -/
def extract_data_core (toDT : Int → PyDateTime) (rows : List Reading)
    (registers : List String) : ExtractResult :=
  if rows.length < 2 then
    ExtractResult.failure (insufficientMsg rows.length)
  else
    let sanitized_registers := make_columns_unique registers
    let register_mapping := registers.zip sanitized_registers
    let columns := ["Date", "Time", "Timestamp"] ++ registers
    let data := process_rows toDT rows registers
      (fun r => (register_mapping.lookup r).getD r)
    ExtractResult.success
      { columns := columns
        sanitized_columns := sanitized_registers
        register_mapping := register_mapping
        data := data
        total_records := data.length }

/-- A concrete timezone conversion used to evaluate the reducer at
concrete inputs in witnesses: every epoch second maps to one fixed
instant (Thursday 1970-01-01 12:30:45). -/
def constDT : Int → PyDateTime := fun _ => ⟨1970, 1, 1, 3, 12, 30, 45, 0⟩

/-- Value of a little-endian decimal digit list. -/
def valRev : List Nat → Nat
  | [] => 0
  | d :: ds => d + 10 * valRev ds

/-- No two adjacent underscores — the invariant established by
`re.sub(r'_+', '_', …)`. -/
def noUU (a b : Char) : Prop := ¬(a = '_' ∧ b = '_')

/-- The columns field of an extraction outcome (empty on failure). -/
def resultColumns : ExtractResult → List String
  | ExtractResult.success r => r.columns
  | ExtractResult.failure _ => []

/-- The sanitized-columns field of an extraction outcome (empty on
failure). -/
def resultSanitized : ExtractResult → List String
  | ExtractResult.success r => r.sanitized_columns
  | ExtractResult.failure _ => []

/-! ### Decimal rendering is injective -/

theorem valRev_decDigitsGo : ∀ (fuel n : Nat), n ≤ fuel → valRev (decDigitsGo fuel n) = n := by
  intro fuel
  induction fuel with
  | zero =>
      intro n hn
      have hn0 : n = 0 := by omega
      subst hn0; rfl
  | succ f ih =>
      intro n hn
      by_cases h10 : n < 10
      · simp [decDigitsGo, h10, valRev]
      · have hdiv : n / 10 < n := Nat.div_lt_self (by omega) (by omega)
        have hrec := ih (n / 10) (by omega)
        simp only [decDigitsGo, if_neg h10, valRev, hrec]
        omega

theorem decDigitsGo_lt_ten : ∀ (fuel n : Nat), ∀ d ∈ decDigitsGo fuel n, d < 10 := by
  intro fuel
  induction fuel with
  | zero =>
      intro n d hd
      simp [decDigitsGo] at hd
      omega
  | succ f ih =>
      intro n d hd
      by_cases h10 : n < 10
      · simp [decDigitsGo, h10] at hd; omega
      · simp only [decDigitsGo, if_neg h10, List.mem_cons] at hd
        rcases hd with hd | hd
        · omega
        · exact ih _ _ hd

theorem digitChar_inj : ∀ a < 10, ∀ b < 10, digitChar a = digitChar b → a = b := by decide

theorem map_digitChar_inj :
    ∀ (l1 l2 : List Nat), (∀ d ∈ l1, d < 10) → (∀ d ∈ l2, d < 10) →
      l1.map digitChar = l2.map digitChar → l1 = l2 := by
  intro l1
  induction l1 with
  | nil =>
      intro l2 _ _ h
      cases l2 with
      | nil => rfl
      | cons b t2 => simp at h
  | cons a t ih =>
      intro l2 h1 h2 h
      cases l2 with
      | nil => simp at h
      | cons b t2 =>
          simp only [List.map_cons, List.cons.injEq] at h
          have hab : a = b :=
            digitChar_inj a (h1 a (by simp)) b (h2 b (by simp)) h.1
          have ht : t = t2 :=
            ih t2 (fun d hd => h1 d (by simp [hd])) (fun d hd => h2 d (by simp [hd])) h.2
          rw [hab, ht]

theorem pyStr_injective : ∀ m n : Nat, pyStr m = pyStr n → m = n := by
  intro m n h
  have hdata : ((decDigitsRev m).reverse.map digitChar)
      = ((decDigitsRev n).reverse.map digitChar) := congrArg String.data h
  have hrev : (decDigitsRev m).reverse = (decDigitsRev n).reverse := by
    refine map_digitChar_inj _ _ ?_ ?_ hdata
    · intro d hd
      exact decDigitsGo_lt_ten m m d (List.mem_reverse.mp hd)
    · intro d hd
      exact decDigitsGo_lt_ten n n d (List.mem_reverse.mp hd)
  have hlists : decDigitsRev m = decDigitsRev n := List.reverse_inj.mp hrev
  have hm := valRev_decDigitsGo m m (Nat.le_refl m)
  have hn := valRev_decDigitsGo n n (Nat.le_refl n)
  rw [← hm, ← hn]
  unfold decDigitsRev at hlists
  rw [hlists]

theorem candidate_inj (original : String) :
    ∀ j k : Nat, (original ++ "_" ++ pyStr j) = (original ++ "_" ++ pyStr k) → j = k := by
  intro j k h
  apply pyStr_injective
  have hd := congrArg String.data h
  simp only [String.data_append] at hd
  exact String.ext (List.append_cancel_left hd)

/-! ### The collision-resolution loop of `make_columns_unique` -/

theorem exists_free_candidate (seen : List String) (original : String) :
    ∃ k, 2 ≤ k ∧ k < 2 + (seen.length + 1) ∧ (original ++ "_" ++ pyStr k) ∉ seen := by
  by_contra hcon
  push_neg at hcon
  have hnodup : ((List.range (seen.length + 1)).map
      (fun j => original ++ "_" ++ pyStr (2 + j))).Nodup := by
    refine List.Nodup.map_on ?_ (List.nodup_range _)
    intro x _ y _ hxy
    have := candidate_inj original (2 + x) (2 + y) hxy
    omega
  have hsub : ∀ x ∈ (List.range (seen.length + 1)).map
      (fun j => original ++ "_" ++ pyStr (2 + j)), x ∈ seen := by
    intro x hx
    rcases List.mem_map.mp hx with ⟨j, hj, rfl⟩
    have hjlt := List.mem_range.mp hj
    exact hcon _ (by omega) (by omega)
  have h1 : ((List.range (seen.length + 1)).map
      (fun j => original ++ "_" ++ pyStr (2 + j))).toFinset.card = seen.length + 1 := by
    rw [List.toFinset_card_of_nodup hnodup]
    simp
  have h2 : ((List.range (seen.length + 1)).map
      (fun j => original ++ "_" ++ pyStr (2 + j))).toFinset ⊆ seen.toFinset := by
    intro x hx
    rw [List.mem_toFinset] at hx
    rw [List.mem_toFinset]
    exact hsub x hx
  have h3 := Finset.card_le_card h2
  have h4 := List.toFinset_card_le seen
  omega

theorem findUniqueName_notMem (seen : List String) (original : String) :
    ∀ (fuel counter : Nat) (cand : String),
      (cand ∉ seen ∨ ∃ k, counter ≤ k ∧ k < counter + fuel ∧ (original ++ "_" ++ pyStr k) ∉ seen) →
      findUniqueName seen original cand counter fuel ∉ seen := by
  intro fuel
  induction fuel with
  | zero =>
      intro counter cand h
      rcases h with h | ⟨k, hk1, hk2, _⟩
      · simpa [findUniqueName] using h
      · omega
  | succ f ih =>
      intro counter cand h
      by_cases hc : cand ∈ seen
      · rw [findUniqueName, if_pos hc]
        apply ih
        rcases h with h | ⟨k, hk1, hk2, hk3⟩
        · exact absurd hc h
        · by_cases hkc : k = counter
          · subst hkc; exact Or.inl hk3
          · exact Or.inr ⟨k, by omega, by omega, hk3⟩
      · rw [findUniqueName, if_neg hc]
        exact hc

theorem chosen_notMem (seen : List String) (original : String) :
    findUniqueName seen original original 2 (seen.length + 1) ∉ seen := by
  apply findUniqueName_notMem
  rcases exists_free_candidate seen original with ⟨k, h1, h2, h3⟩
  exact Or.inr ⟨k, h1, h2, h3⟩

theorem makeColumnsUniqueGo_spec : ∀ (cols seen : List String),
    (makeColumnsUniqueGo seen cols).length = cols.length ∧
    (makeColumnsUniqueGo seen cols).Nodup ∧
    ∀ x ∈ makeColumnsUniqueGo seen cols, x ∉ seen := by
  intro cols
  induction cols with
  | nil =>
      intro seen
      simp [makeColumnsUniqueGo]
  | cons col rest ih =>
      intro seen
      obtain ⟨ihlen, ihnodup, ihmem⟩ :=
        ih (findUniqueName seen (sanitize_column_name col) (sanitize_column_name col) 2
          (seen.length + 1) :: seen)
      refine ⟨?_, ?_, ?_⟩
      · simp [makeColumnsUniqueGo, ihlen]
      · simp only [makeColumnsUniqueGo]
        refine List.nodup_cons.mpr ⟨?_, ihnodup⟩
        intro hmem
        exact ihmem _ hmem (by simp)
      · simp only [makeColumnsUniqueGo, List.mem_cons]
        rintro x (rfl | hx)
        · exact chosen_notMem seen (sanitize_column_name col)
        · intro hxs
          exact ihmem x hx (by simp [hxs])

/-! ### Reducer structure -/

theorem process_rows_length (toDT : Int → PyDateTime) (registers : List String)
    (mapping : String → String) :
    ∀ rows : List Reading,
      (process_rows toDT rows registers mapping).length = rows.length - 1 := by
  intro rows
  induction rows with
  | nil => rfl
  | cons a tl ih =>
      cases tl with
      | nil => rfl
      | cons b rest =>
          simp only [process_rows, List.length_cons] at ih ⊢
          omega

theorem deltaVal_absent (a b : Reading) (reg : String)
    (habs : regLookup a.regs reg = none ∨ regLookup b.regs reg = none) :
    deltaVal a b reg = 0 := by
  unfold deltaVal
  rcases habs with h | h
  · rw [h]
  · rw [h]
    cases regLookup a.regs reg <;> rfl

theorem process_rows_get (toDT : Int → PyDateTime) (registers : List String)
    (mapping : String → String) :
    ∀ (rows : List Reading) (i : Nat) (h1 : i + 1 < rows.length)
      (h2 : i < (process_rows toDT rows registers mapping).length),
      (process_rows toDT rows registers mapping).get ⟨i, h2⟩
        = mkRecord toDT (rows.get ⟨i, Nat.lt_of_succ_lt h1⟩) (rows.get ⟨i + 1, h1⟩)
            registers mapping := by
  intro rows
  induction rows with
  | nil =>
      intro i h1 _
      simp at h1
  | cons a tl ih =>
      cases tl with
      | nil =>
          intro i h1 _
          simp at h1
      | cons b rest =>
          intro i h1 h2
          cases i with
          | zero => rfl
          | succ i =>
              have h1' : i + 1 < (b :: rest).length := by
                simpa using h1
              have h2' : i < (process_rows toDT (b :: rest) registers mapping).length := by
                simpa [process_rows] using h2
              simpa using ih i h1' h2'

/-! ### Claim theorems: reducer and orchestrator -/

/-- C1: for every ordered sequence of at least 2 readings, the reducer produces one
record per adjacent pair — exactly `n - 1` records in input order — where record `i`
is built from the pair `(readings[i], readings[i+1])` with timestamp/date/time derived
from `readings[i+1]`, each register's delta being `readings[i] − readings[i+1]`; in
particular, on `[{ts:200,{A:50}}, {ts:100,{A:30}}]` the single output record has
timestamp 100 and value 20 for `A`. -/
theorem C1_reducer_adjacent_pairs (toDT : Int → PyDateTime) (rows : List Reading)
    (registers : List String) (mapping : String → String) (_hlen : 2 ≤ rows.length) :
    (process_rows toDT rows registers mapping).length = rows.length - 1 ∧
    (∀ (i : Nat) (h1 : i + 1 < rows.length)
        (h2 : i < (process_rows toDT rows registers mapping).length),
      (process_rows toDT rows registers mapping).get ⟨i, h2⟩
        = mkRecord toDT (rows.get ⟨i, Nat.lt_of_succ_lt h1⟩) (rows.get ⟨i + 1, h1⟩)
            registers mapping) ∧
    (∀ (a b : Reading) (reg : String) (x y : Int),
      regLookup a.regs reg = some x → regLookup b.regs reg = some y →
        deltaVal a b reg = x - y) ∧
    (process_rows toDT [⟨200, [("A", 50)]⟩, ⟨100, [("A", 30)]⟩] ["A"] (fun r => r)).map
        (fun r => (r.timestamp, r.values)) = [((100 : Int), [("A", (20 : Int))])] := by
  refine ⟨process_rows_length toDT registers mapping rows,
    process_rows_get toDT registers mapping rows, ?_, ?_⟩
  · intro a b reg x y hx hy
    simp [deltaVal, hx, hy]
  · simp [process_rows, mkRecord, deltaVal, regLookup, List.lookup]

theorem C1_reducer_adjacent_pairs_witness :
    2 ≤ ([⟨200, [("A", 50)]⟩, ⟨100, [("A", 30)]⟩] : List Reading).length ∧
    (process_rows constDT [⟨200, [("A", 50)]⟩, ⟨100, [("A", 30)]⟩] ["A"] (fun r => r)).length
      = ([⟨200, [("A", 50)]⟩, ⟨100, [("A", 30)]⟩] : List Reading).length - 1 :=
  ⟨by decide,
    (C1_reducer_adjacent_pairs constDT [⟨200, [("A", 50)]⟩, ⟨100, [("A", 30)]⟩] ["A"]
      (fun r => r) (by decide)).1⟩

/-- C3: `make_columns_unique` is length- and order-preserving and its output has no
duplicates; a sanitized form colliding with an already-assigned identifier gets a
`_2`, `_3`, … suffix in first-seen order; in particular
`["Andrea (Delta)", "Andrea (Delta)", "Inv 6-8+"]` maps to
`["andrea_delta", "andrea_delta_2", "inv_6_8_plus"]`. -/
theorem C3_make_columns_unique_nodup :
    (∀ cols : List String,
      (make_columns_unique cols).length = cols.length ∧ (make_columns_unique cols).Nodup) ∧
    make_columns_unique ["Andrea (Delta)", "Andrea (Delta)", "Inv 6-8+"]
      = ["andrea_delta", "andrea_delta_2", "inv_6_8_plus"] := by
  constructor
  · intro cols
    have h := makeColumnsUniqueGo_spec cols []
    exact ⟨h.1, h.2.1⟩
  · decide

/-- C5: a register absent from either reading of an adjacent pair contributes delta
`0.0` to the pair's record (at the register's position in the record's value list),
and the reducer still produces its record for that pair rather than failing. -/
theorem C5_missing_register_tolerance (toDT : Int → PyDateTime) (a b : Reading)
    (registers : List String) (mapping : String → String) (reg : String) (j : Nat)
    (hj : j < registers.length) (hreg : registers.get ⟨j, hj⟩ = reg)
    (habs : regLookup a.regs reg = none ∨ regLookup b.regs reg = none) :
    deltaVal a b reg = 0 ∧
    (∀ hv : j < (mkRecord toDT a b registers mapping).values.length,
      (mkRecord toDT a b registers mapping).values.get ⟨j, hv⟩ = (mapping reg, 0)) ∧
    (∀ rest : List Reading,
      (process_rows toDT (a :: b :: rest) registers mapping).length = rest.length + 1) := by
  refine ⟨deltaVal_absent a b reg habs, ?_, ?_⟩
  · intro hv
    have hmap : (mkRecord toDT a b registers mapping).values
        = registers.map (fun r => (mapping r, deltaVal a b r)) := rfl
    rw [List.get_of_eq hmap]
    simp only [List.get_eq_getElem, List.getElem_map]
    rw [List.get_eq_getElem] at hreg
    rw [hreg, deltaVal_absent a b reg habs]
  · intro rest
    have h := process_rows_length toDT registers mapping (a :: b :: rest)
    simpa using h

theorem C5_missing_register_tolerance_witness :
    regLookup (([] : List (String × Int))) "A" = none ∧
    deltaVal ⟨200, [("A", 50)]⟩ ⟨100, []⟩ "A" = 0 :=
  ⟨by decide,
    (C5_missing_register_tolerance constDT ⟨200, [("A", 50)]⟩ ⟨100, []⟩ ["A"] (fun r => r)
      "A" 0 (by decide) (by decide) (Or.inr (by decide))).1⟩

/-- C6: when the device fetch yields fewer than 2 readings, the orchestrator returns a
structured insufficient-data failure — not an exception — whose message names the
received row count, and emits no success payload (hence no records). -/
theorem C6_insufficient_data (toDT : Int → PyDateTime) (rows : List Reading)
    (registers : List String) (h : rows.length < 2) :
    extract_data_core toDT rows registers
      = ExtractResult.failure ("Not enough data in the specified range. Received only "
          ++ pyStr rows.length ++ " rows. The device may not have data for this period.") ∧
    ∀ r : ExtractOk, extract_data_core toDT rows registers ≠ ExtractResult.success r := by
  have he : extract_data_core toDT rows registers
      = ExtractResult.failure ("Not enough data in the specified range. Received only "
          ++ pyStr rows.length ++ " rows. The device may not have data for this period.") := by
    simp [extract_data_core, h, insufficientMsg]
  refine ⟨he, ?_⟩
  intro r hr
  rw [he] at hr
  exact ExtractResult.noConfusion hr

theorem C6_insufficient_data_witness :
    ([] : List Reading).length < 2 ∧
    extract_data_core constDT [] ["A"]
      = ExtractResult.failure ("Not enough data in the specified range. Received only "
          ++ pyStr ([] : List Reading).length
          ++ " rows. The device may not have data for this period.") :=
  ⟨by decide, (C6_insufficient_data constDT [] ["A"] (by decide)).1⟩

/-- C4 counterexample: on a successful extraction over the single register `A`, the
returned `columns` field is not the raw register list (it is prefixed with the fixed
`Date`/`Time`/`Timestamp` labels), and its length differs from `sanitized_columns`. -/
theorem C4_counterexample :
    resultColumns (extract_data_core constDT [⟨200, [("A", 50)]⟩, ⟨100, [("A", 30)]⟩] ["A"])
      ≠ ["A"] ∧
    (resultColumns
        (extract_data_core constDT [⟨200, [("A", 50)]⟩, ⟨100, [("A", 30)]⟩] ["A"])).length
      ≠ (resultSanitized
        (extract_data_core constDT [⟨200, [("A", 50)]⟩, ⟨100, [("A", 30)]⟩] ["A"])).length := by
  decide

/-- C4 (amended): a successful extraction returns `columns` equal to the three fixed
labels `Date`, `Time`, `Timestamp` followed by the raw register labels in original
order, `sanitized_columns` equal to the unique sanitized identifiers of the registers
in that same order (one per register, so its length is that of the register list),
the register-name mapping, the records, and the total record count. -/
theorem C4_result_shape (toDT : Int → PyDateTime) (rows : List Reading)
    (registers : List String) (h : 2 ≤ rows.length) :
    extract_data_core toDT rows registers = ExtractResult.success
      { columns := ["Date", "Time", "Timestamp"] ++ registers
        sanitized_columns := make_columns_unique registers
        register_mapping := registers.zip (make_columns_unique registers)
        data := process_rows toDT rows registers
          (fun r => ((registers.zip (make_columns_unique registers)).lookup r).getD r)
        total_records := (process_rows toDT rows registers
          (fun r => ((registers.zip (make_columns_unique registers)).lookup r).getD r)).length } ∧
    (make_columns_unique registers).length = registers.length := by
  constructor
  · have h2 : ¬ rows.length < 2 := by omega
    simp [extract_data_core, h2]
  · exact (makeColumnsUniqueGo_spec registers []).1

/-! ### Claim theorems: tariff classifier -/

theorem classify_weekday_eq (h m : Nat) (hh : h < 24) (hm : m < 60) :
    classify_weekday ⟨h, m, 0⟩ =
      if 18 ≤ h ∧ h < 22 then Tariff.Punta
      else if (6 ≤ h ∧ h < 10) ∨ 22 ≤ h then Tariff.Intermedio
      else Tariff.Base := by
  have c1 : ((timeLE ⟨18, 0, 0⟩ ⟨h, m, 0⟩ && timeLT ⟨h, m, 0⟩ ⟨22, 0, 0⟩) = true)
      ↔ (18 ≤ h ∧ h < 22) := by
    simp [timeLE, timeLT]
    omega
  have c2 : (((timeLE ⟨6, 0, 0⟩ ⟨h, m, 0⟩ && timeLT ⟨h, m, 0⟩ ⟨10, 0, 0⟩)
        || (timeLE ⟨22, 0, 0⟩ ⟨h, m, 0⟩ && timeLE ⟨h, m, 0⟩ ⟨23, 59, 59⟩)) = true)
      ↔ ((6 ≤ h ∧ h < 10) ∨ 22 ≤ h) := by
    simp [timeLE, timeLT]
    omega
  simp only [classify_weekday]
  by_cases h1 : 18 ≤ h ∧ h < 22
  · rw [if_pos (c1.mpr h1), if_pos h1]
  · rw [if_neg (fun hb => h1 (c1.mp hb)), if_neg h1]
    by_cases h2 : (6 ≤ h ∧ h < 10) ∨ 22 ≤ h
    · rw [if_pos (c2.mpr h2), if_pos h2]
    · rw [if_neg (fun hb => h2 (c2.mp hb)), if_neg h2]

/-- C2: the classifier maps every timestamp to exactly one of the three categories:
Base unconditionally on Saturday/Sunday (weekday ≥ 5); otherwise Peak exactly on
`[18:00, 22:00)`, Intermediate exactly on `[06:00, 10:00)` together with the
closed band `[22:00, 23:59:59]` (stated in seconds since midnight: 64800–79199
Peak, 21600–35999 and 79200–86399 Intermediate), and Base on everything else;
the six concrete examples of the spec evaluate accordingly. -/
theorem C2_classify_tariff_bands :
    (∀ t : PyDateTime, t.hour < 24 → t.minute < 60 → t.second < 60 →
      (5 ≤ t.weekday → classify_tariff t = Tariff.Base) ∧
      (t.weekday < 5 →
        (classify_tariff t = Tariff.Punta ↔
          64800 ≤ secOfDay t ∧ secOfDay t < 79200) ∧
        (classify_tariff t = Tariff.Intermedio ↔
          (21600 ≤ secOfDay t ∧ secOfDay t < 36000) ∨
          (79200 ≤ secOfDay t ∧ secOfDay t ≤ 86399)) ∧
        (classify_tariff t = Tariff.Base ↔
          ¬((64800 ≤ secOfDay t ∧ secOfDay t < 79200) ∨
            (21600 ≤ secOfDay t ∧ secOfDay t < 36000) ∨
            (79200 ≤ secOfDay t ∧ secOfDay t ≤ 86399))))) ∧
    classify_tariff ⟨2025, 10, 30, 3, 8, 0, 0, 0⟩ = Tariff.Intermedio ∧
    classify_tariff ⟨2025, 10, 30, 3, 12, 0, 0, 0⟩ = Tariff.Base ∧
    classify_tariff ⟨2025, 10, 30, 3, 19, 0, 0, 0⟩ = Tariff.Punta ∧
    classify_tariff ⟨2025, 10, 30, 3, 23, 0, 0, 0⟩ = Tariff.Intermedio ∧
    classify_tariff ⟨2025, 11, 1, 5, 12, 0, 0, 0⟩ = Tariff.Base ∧
    classify_tariff ⟨2025, 11, 2, 6, 19, 0, 0, 0⟩ = Tariff.Base := by
  refine ⟨?_, by decide, by decide, by decide, by decide, by decide, by decide⟩
  intro t hh hm hs
  constructor
  · intro hw
    simp [classify_tariff, hw]
  · intro hw
    have hw' : ¬ 5 ≤ t.weekday := by omega
    have hcw := classify_weekday_eq t.hour t.minute hh hm
    have hct : classify_tariff t = classify_weekday ⟨t.hour, t.minute, 0⟩ := by
      simp [classify_tariff, hw']
    rw [hct, hcw]
    unfold secOfDay
    by_cases h1 : 18 ≤ t.hour ∧ t.hour < 22
    · rw [if_pos h1]
      refine ⟨by simp; omega, by simp; omega, by simp; omega⟩
    · rw [if_neg h1]
      by_cases h2 : (6 ≤ t.hour ∧ t.hour < 10) ∨ 22 ≤ t.hour
      · rw [if_pos h2]
        refine ⟨by simp; omega, by simp; omega, by simp; omega⟩
      · rw [if_neg h2]
        refine ⟨by simp; omega, by simp; omega, by simp; omega⟩

theorem C2_classify_tariff_bands_witness :
    ((19 : Nat) < 24 ∧ (0 : Nat) < 60 ∧ (0 : Nat) < 60 ∧ (3 : Nat) < 5) ∧
    (classify_tariff ⟨2025, 10, 30, 3, 19, 0, 0, 0⟩ = Tariff.Punta ↔
      64800 ≤ secOfDay ⟨2025, 10, 30, 3, 19, 0, 0, 0⟩ ∧
        secOfDay ⟨2025, 10, 30, 3, 19, 0, 0, 0⟩ < 79200) :=
  ⟨⟨by decide, by decide, by decide, by decide⟩,
    (((C2_classify_tariff_bands.1 ⟨2025, 10, 30, 3, 19, 0, 0, 0⟩ (by decide) (by decide)
      (by decide)).2 (by decide)).1)⟩

/-- C10: the classifier's verdict depends only on the weekday, hour and minute of the
timestamp — it is invariant under the second (and the modelled sub-second) component,
and indeed under every other field of the datetime. -/
theorem C10_classify_ignores_seconds (t t' : PyDateTime)
    (hw : t.weekday = t'.weekday) (hh : t.hour = t'.hour) (hm : t.minute = t'.minute) :
    classify_tariff t = classify_tariff t' := by
  simp [classify_tariff, hw, hh, hm]

theorem C10_classify_ignores_seconds_witness :
    classify_tariff ⟨2025, 10, 30, 3, 23, 59, 59, 999999⟩
      = classify_tariff ⟨2025, 10, 30, 3, 23, 59, 0, 0⟩ :=
  C10_classify_ignores_seconds ⟨2025, 10, 30, 3, 23, 59, 59, 999999⟩
    ⟨2025, 10, 30, 3, 23, 59, 0, 0⟩ rfl rfl rfl

/-! ### Sanitizer pipeline lemmas -/

theorem map_id_of {α : Type} (f : α → α) :
    ∀ l : List α, (∀ c ∈ l, f c = c) → l.map f = l := by
  intro l
  induction l with
  | nil => intro _; rfl
  | cons a t ih =>
      intro h
      simp only [List.map_cons, h a (by simp), ih (fun c hc => h c (by simp [hc]))]

theorem asciiToLower_fixed (c : Char) (h : allowedChar c) : asciiToLower c = c := by
  unfold asciiToLower
  rw [if_neg]
  rintro ⟨hA, hZ⟩
  rcases h with ⟨h1, _⟩ | ⟨_, h2⟩ | h1
  · exact absurd (le_trans h1 hZ) (by decide)
  · exact absurd (le_trans hA h2) (by decide)
  · subst h1
    exact absurd (And.intro hA hZ) (by decide)

theorem allowedChar_ne_plus (c : Char) (h : allowedChar c) : c ≠ '+' := by
  rintro rfl
  revert h
  decide

theorem allowedChar_ne_minus (c : Char) (h : allowedChar c) : c ≠ '-' := by
  rintro rfl
  revert h
  decide

theorem replacePlus_fixed : ∀ l : List Char, (∀ c ∈ l, c ≠ '+') → replacePlus l = l := by
  intro l
  induction l with
  | nil => intro _; rfl
  | cons a t ih =>
      intro h
      simp only [replacePlus, if_neg (h a (by simp)), List.singleton_append,
        ih (fun c hc => h c (by simp [hc]))]

theorem replaceMinus_fixed (l : List Char) (h : ∀ c ∈ l, c ≠ '-') : replaceMinus l = l := by
  unfold replaceMinus
  exact map_id_of _ l (fun c hc => by simp [h c hc])

theorem replaceSpecials_fixed (l : List Char) (h : ∀ c ∈ l, allowedChar c) :
    replaceSpecials l = l := by
  unfold replaceSpecials
  exact map_id_of _ l (fun c hc => by simp [h c hc])

theorem replaceSpecials_allowed (l : List Char) : ∀ c ∈ replaceSpecials l, allowedChar c := by
  intro c hc
  rcases List.mem_map.mp hc with ⟨x, _, rfl⟩
  by_cases hx : allowedChar x
  · simp [hx]
  · simp only [if_neg hx]
    decide

theorem collapse_subset : ∀ l : List Char, ∀ c ∈ collapseUnderscores l, c ∈ l := by
  intro l
  induction l with
  | nil => intro c hc; simp [collapseUnderscores] at hc
  | cons a t ih =>
      cases t with
      | nil => intro c hc; exact hc
      | cons b rest =>
          intro c hc
          by_cases hab : a = '_' ∧ b = '_'
          · rw [collapseUnderscores, if_pos hab] at hc
            exact List.mem_cons_of_mem a (ih c hc)
          · rw [collapseUnderscores, if_neg hab] at hc
            rcases List.mem_cons.mp hc with rfl | hc'
            · exact List.mem_cons_self c _
            · exact List.mem_cons_of_mem a (ih c hc')

theorem collapse_head? : ∀ (l : List Char) (a : Char),
    (collapseUnderscores (a :: l)).head? = some a := by
  intro l
  induction l with
  | nil => intro a; rfl
  | cons b rest ih =>
      intro a
      by_cases hab : a = '_' ∧ b = '_'
      · rw [collapseUnderscores, if_pos hab, ih b]
        rw [hab.1, hab.2]
      · rw [collapseUnderscores, if_neg hab]
        rfl

theorem collapse_chain' : ∀ l : List Char, List.Chain' noUU (collapseUnderscores l) := by
  intro l
  induction l with
  | nil => exact List.chain'_nil
  | cons a t ih =>
      cases t with
      | nil => exact List.chain'_singleton a
      | cons b rest =>
          by_cases hab : a = '_' ∧ b = '_'
          · rw [collapseUnderscores, if_pos hab]
            exact ih
          · rw [collapseUnderscores, if_neg hab]
            refine List.chain'_cons'.mpr ⟨?_, ih⟩
            intro y hy
            rw [collapse_head? rest b] at hy
            cases hy
            exact hab

theorem collapse_fixed : ∀ l : List Char, List.Chain' noUU l → collapseUnderscores l = l := by
  intro l
  induction l with
  | nil => intro _; rfl
  | cons a t ih =>
      cases t with
      | nil => intro _; rfl
      | cons b rest =>
          intro hch
          obtain ⟨hab, htail⟩ := List.chain'_cons.mp hch
          rw [collapseUnderscores, if_neg hab, ih htail]

theorem dropWhile_underscore_head : ∀ (l : List Char) (a : Char),
    (l.dropWhile (· = '_')).head? = some a → a ≠ '_' := by
  intro l
  induction l with
  | nil => intro a ha; exact absurd ha (by simp)
  | cons c t ih =>
      intro a ha
      by_cases hc : c = '_'
      · rw [List.dropWhile_cons_of_pos (by simp [hc])] at ha
        exact ih a ha
      · rw [List.dropWhile_cons_of_neg (by simp [hc])] at ha
        cases ha
        exact hc

theorem strip_subset (l : List Char) : ∀ c ∈ stripUnderscores l, c ∈ l := by
  intro c hc
  unfold stripUnderscores at hc
  rw [List.mem_reverse] at hc
  have h1 := List.dropWhile_subset (l := (l.dropWhile (· = '_')).reverse) (· = '_') hc
  rw [List.mem_reverse] at h1
  exact List.dropWhile_subset _ h1

theorem strip_head (l : List Char) (a : Char)
    (ha : (stripUnderscores l).head? = some a) : a ≠ '_' := by
  unfold stripUnderscores at ha
  have hsuf : ((l.dropWhile (· = '_')).reverse.dropWhile (· = '_'))
      <:+ (l.dropWhile (· = '_')).reverse := List.dropWhile_suffix _
  obtain ⟨t, ht⟩ := hsuf
  have hu : l.dropWhile (· = '_')
      = ((l.dropWhile (· = '_')).reverse.dropWhile (· = '_')).reverse ++ t.reverse := by
    have h2 := congrArg List.reverse ht
    rw [List.reverse_append, List.reverse_reverse] at h2
    exact h2.symm
  have : (l.dropWhile (· = '_')).head? = some a := by
    rw [hu, List.head?_append, ha]
    rfl
  exact dropWhile_underscore_head l a this

theorem strip_last (l : List Char) (a : Char)
    (ha : (stripUnderscores l).getLast? = some a) : a ≠ '_' := by
  unfold stripUnderscores at ha
  rw [List.getLast?_reverse] at ha
  exact dropWhile_underscore_head (l.dropWhile (· = '_')).reverse a
    (by simpa using ha)

theorem chain'_noUU_reverse (l : List Char) (h : List.Chain' noUU l) :
    List.Chain' noUU l.reverse := by
  rw [List.chain'_reverse]
  exact h.imp (fun a b hab => by rw [Function.flip_def]; intro ⟨x, y⟩; exact hab ⟨y, x⟩)

theorem strip_chain' (l : List Char) (h : List.Chain' noUU l) :
    List.Chain' noUU (stripUnderscores l) := by
  unfold stripUnderscores
  apply chain'_noUU_reverse
  refine List.Chain'.suffix ?_ (List.dropWhile_suffix _)
  apply chain'_noUU_reverse
  exact List.Chain'.suffix h (List.dropWhile_suffix _)

theorem strip_fixed (l : List Char) (hhd : l.head? ≠ some '_')
    (hlast : l.getLast? ≠ some '_') : stripUnderscores l = l := by
  have h1 : l.dropWhile (· = '_') = l := by
    cases l with
    | nil => rfl
    | cons a t =>
        have ha : a ≠ '_' := fun h => hhd (by simp [h])
        exact List.dropWhile_cons_of_neg (by simp [ha])
  have h2 : l.reverse.dropWhile (· = '_') = l.reverse := by
    cases hrl : l.reverse with
    | nil => rfl
    | cons a t =>
        have ha : a ≠ '_' := by
          intro hu
          apply hlast
          rw [← List.head?_reverse, hrl, hu]
          rfl
        exact List.dropWhile_cons_of_neg (by simp [ha])
  unfold stripUnderscores
  rw [h1, h2, List.reverse_reverse]

theorem postPipeline_good (X : List Char) :
    (∀ c ∈ stripUnderscores (collapseUnderscores (replaceSpecials X)), allowedChar c) ∧
    List.Chain' noUU (stripUnderscores (collapseUnderscores (replaceSpecials X))) ∧
    (∀ a, (stripUnderscores (collapseUnderscores (replaceSpecials X))).head? = some a →
      a ≠ '_') ∧
    (∀ a, (stripUnderscores (collapseUnderscores (replaceSpecials X))).getLast? = some a →
      a ≠ '_') := by
  refine ⟨?_, ?_, ?_, ?_⟩
  · intro c hc
    exact replaceSpecials_allowed X c
      (collapse_subset _ c (strip_subset _ c hc))
  · exact strip_chain' _ (collapse_chain' _)
  · intro a ha
    exact strip_head _ a ha
  · intro a ha
    exact strip_last _ a ha

theorem C4_result_shape_witness :
    2 ≤ ([⟨200, [("A", 50)]⟩, ⟨100, [("A", 30)]⟩] : List Reading).length ∧
    (make_columns_unique ["A"]).length = (["A"] : List String).length :=
  ⟨by decide,
    (C4_result_shape constDT [⟨200, [("A", 50)]⟩, ⟨100, [("A", 30)]⟩] ["A"] (by decide)).2⟩

/-! ### Sanitizer fixed points -/

theorem sanitizeColumnChars_fixed (l : List Char)
    (hall : ∀ c ∈ l, allowedChar c) (hch : List.Chain' noUU l)
    (hhd : l.head? ≠ some '_') (hlast : l.getLast? ≠ some '_') :
    sanitizeColumnChars l = l := by
  unfold sanitizeColumnChars
  rw [map_id_of asciiToLower l (fun c hc => asciiToLower_fixed c (hall c hc)),
    replacePlus_fixed l (fun c hc => allowedChar_ne_plus c (hall c hc)),
    replaceMinus_fixed l (fun c hc => allowedChar_ne_minus c (hall c hc)),
    replaceSpecials_fixed l hall, collapse_fixed l hch, strip_fixed l hhd hlast]

theorem sanitizeTableChars_fixed (l : List Char)
    (hall : ∀ c ∈ l, allowedChar c) (hch : List.Chain' noUU l)
    (hhd : l.head? ≠ some '_') (hlast : l.getLast? ≠ some '_') :
    sanitizeTableChars l = l := by
  unfold sanitizeTableChars
  rw [map_id_of asciiToLower l (fun c hc => asciiToLower_fixed c (hall c hc)),
    replaceSpecials_fixed l hall, collapse_fixed l hch, strip_fixed l hhd hlast]

theorem sanitize_table_name_def (s : String) :
    sanitize_table_name s = match sanitizeTableChars s.data with
      | [] => "data_client"
      | c :: rest =>
          if isDigitChar c then String.mk ('d' :: 'a' :: 't' :: 'a' :: '_' :: c :: rest)
          else String.mk (c :: rest) := rfl

theorem sanitize_table_shape (s : String) :
    (sanitizeTableChars s.data = [] ∧ sanitize_table_name s = "data_client") ∨
    (∃ c rest, sanitizeTableChars s.data = c :: rest ∧ isDigitChar c ∧
      sanitize_table_name s = String.mk ('d' :: 'a' :: 't' :: 'a' :: '_' :: c :: rest)) ∨
    (∃ c rest, sanitizeTableChars s.data = c :: rest ∧ ¬ isDigitChar c ∧
      sanitize_table_name s = String.mk (c :: rest)) := by
  cases htc : sanitizeTableChars s.data with
  | nil =>
      left
      exact ⟨rfl, by rw [sanitize_table_name_def, htc]⟩
  | cons c rest =>
      by_cases hd : isDigitChar c
      · right; left
        refine ⟨c, rest, rfl, hd, ?_⟩
        rw [sanitize_table_name_def, htc]
        simp [hd]
      · right; right
        refine ⟨c, rest, rfl, hd, ?_⟩
        rw [sanitize_table_name_def, htc]
        simp [hd]

theorem sanitize_table_cons_fixed (c : Char) (rest : List Char)
    (hall : ∀ x ∈ c :: rest, allowedChar x) (hch : List.Chain' noUU (c :: rest))
    (hhd : c ≠ '_') (hlast : (c :: rest).getLast? ≠ some '_')
    (hdig : ¬ isDigitChar c) :
    sanitize_table_name (String.mk (c :: rest)) = String.mk (c :: rest) := by
  have hfix : sanitizeTableChars (String.mk (c :: rest)).data = c :: rest :=
    sanitizeTableChars_fixed (c :: rest) hall hch (by simp [hhd]) hlast
  rw [sanitize_table_name_def, hfix]
  simp [hdig]

/-! ### Claim theorems: sanitizers -/

/-- C7 counterexample: the column sanitizer returns the empty string on `"()"` (no
`data_` fallback on the column path), and the table sanitizer maps `+` to plain `_`
rather than `_plus`. -/
theorem C7_counterexample :
    sanitize_column_name "()" = "" ∧ sanitize_table_name "a+b" = "a_b" := by
  decide

/-- C7 (amended): both sanitizers lower-case, replace runs of characters outside
`[a-z0-9_]` with a single `_`, collapse repeated `_` and trim leading/trailing `_`,
but only the column variant maps `+` to `_plus` and `-` to `_` (the table variant
folds them into `_` like any other special); the `data_`-prefix fallback for a
digit-leading result and the non-empty fallback (the literal `data_client`) exist
only on the table path, so the table identifier is never empty and never starts
with a digit, while the column sanitizer may return an empty or digit-leading
identifier. -/
theorem C7_sanitizers_fallbacks :
    (∀ s : String, sanitize_table_name s ≠ "" ∧
      (∀ c, (sanitize_table_name s).data.head? = some c → ¬ isDigitChar c)) ∧
    sanitize_column_name "Andrea (Delta)" = "andrea_delta" ∧
    sanitize_column_name "Inv 6-8+" = "inv_6_8_plus" ∧
    sanitize_column_name "()" = "" ∧
    sanitize_column_name "9x" = "9x" ∧
    sanitize_table_name "a+b" = "a_b" ∧
    sanitize_table_name "Client 1" = "client_1" ∧
    sanitize_table_name "9lives" = "data_9lives" ∧
    sanitize_table_name "()" = "data_client" := by
  refine ⟨?_, by decide, by decide, by decide, by decide, by decide, by decide,
    by decide, by decide⟩
  intro s
  rcases sanitize_table_shape s with ⟨-, hs⟩ | ⟨c, rest, -, hd, hs⟩ | ⟨c, rest, -, hd, hs⟩
  · rw [hs]
    refine ⟨by decide, ?_⟩
    intro c hc
    have hcd : some 'd' = some c := hc
    cases hcd
    decide
  · rw [hs]
    constructor
    · intro h
      have := congrArg String.data h
      simp at this
    · intro x hx
      have hxd : some 'd' = some x := hx
      cases hxd
      decide
  · rw [hs]
    constructor
    · intro h
      have := congrArg String.data h
      simp at this
    · intro x hx
      have hxc : some c = some x := hx
      cases hxc
      exact hd

theorem C7_sanitizers_fallbacks_witness :
    sanitize_table_name "" ≠ "" ∧
    (∀ c, (sanitize_table_name "").data.head? = some c → ¬ isDigitChar c) :=
  C7_sanitizers_fallbacks.1 ""

/-- C8: both identifier sanitizers are idempotent — applying either twice equals
applying it once, for every input string. -/
theorem C8_sanitizer_idempotent (s : String) :
    sanitize_column_name (sanitize_column_name s) = sanitize_column_name s ∧
    sanitize_table_name (sanitize_table_name s) = sanitize_table_name s := by
  constructor
  · obtain ⟨hall, hch, hhd, hlast⟩ :=
      postPipeline_good (replaceMinus (replacePlus (s.data.map asciiToLower)))
    unfold sanitize_column_name
    congr 1
    exact sanitizeColumnChars_fixed _ hall hch
      (fun h => hhd '_' h rfl) (fun h => hlast '_' h rfl)
  · rcases sanitize_table_shape s with ⟨-, hs⟩ | ⟨c, rest, htc, hd, hs⟩ |
      ⟨c, rest, htc, hd, hs⟩
    · rw [hs]
      decide
    · have hg := postPipeline_good (s.data.map asciiToLower)
      rw [show stripUnderscores (collapseUnderscores (replaceSpecials
          (s.data.map asciiToLower))) = sanitizeTableChars s.data from rfl, htc] at hg
      obtain ⟨hall, hch, hhd, hlast⟩ := hg
      rw [hs]
      apply sanitize_table_cons_fixed
      · intro x hx
        simp only [List.mem_cons] at hx
        rcases hx with rfl | rfl | rfl | rfl | rfl | hx
        · decide
        · decide
        · decide
        · decide
        · decide
        · exact hall x (List.mem_cons.mpr hx)
      · refine List.chain'_cons.mpr ⟨fun h => absurd h.1 (by decide), ?_⟩
        refine List.chain'_cons.mpr ⟨fun h => absurd h.1 (by decide), ?_⟩
        refine List.chain'_cons.mpr ⟨fun h => absurd h.1 (by decide), ?_⟩
        refine List.chain'_cons.mpr ⟨fun h => absurd h.1 (by decide), ?_⟩
        refine List.chain'_cons.mpr ⟨?_, hch⟩
        intro h
        exact absurd (h.2 ▸ hd) (by decide)
      · decide
      · simp only [List.getLast?_cons_cons]
        intro h
        exact hlast '_' h rfl
      · decide
    · have hg := postPipeline_good (s.data.map asciiToLower)
      rw [show stripUnderscores (collapseUnderscores (replaceSpecials
          (s.data.map asciiToLower))) = sanitizeTableChars s.data from rfl, htc] at hg
      obtain ⟨hall, hch, hhd, hlast⟩ := hg
      rw [hs]
      apply sanitize_table_cons_fixed c rest hall hch (hhd c rfl)
      · intro h
        exact hlast '_' h rfl
      · exact hd

/-- C9: a label with no character in `[a-z0-9_]` left after lower-casing and the
`+`/`-` substitutions sanitizes to the empty string on the column path — no
`data_` fallback — so `make_columns_unique` can emit `""` and then `"_2"`,
`"_3"`, … for repeats. -/
theorem C9_empty_column_identifiers :
    (∀ s : String,
      (∀ c ∈ replaceMinus (replacePlus (s.data.map asciiToLower)), ¬ allowedChar c) →
      sanitize_column_name s = "") ∧
    make_columns_unique ["()", "***", "()"] = ["", "_2", "_3"] := by
  constructor
  · intro s hno
    unfold sanitize_column_name sanitizeColumnChars
    have hall : ∀ c ∈ replaceSpecials (replaceMinus (replacePlus
        (s.data.map asciiToLower))), c = '_' := by
      intro c hc
      rcases List.mem_map.mp hc with ⟨x, hx, rfl⟩
      rw [if_neg (hno x hx)]
    have hdrop : (collapseUnderscores (replaceSpecials (replaceMinus (replacePlus
        (s.data.map asciiToLower))))).dropWhile (· = '_') = [] := by
      refine List.dropWhile_eq_nil_iff.mpr ?_
      intro x hx
      simp [hall x (collapse_subset _ x hx)]
    unfold stripUnderscores
    rw [hdrop]
    rfl
  · decide

theorem C9_empty_column_identifiers_witness :
    (∀ c ∈ replaceMinus (replacePlus (("()" : String).data.map asciiToLower)),
      ¬ allowedChar c) ∧
    sanitize_column_name "()" = "" :=
  ⟨by decide, C9_empty_column_identifiers.1 "()" (by decide)⟩
